import Mathlib

/-!
Verification development for the ContextPack-Pro core:
the segment compositor, the relevance tracker, and the tree builder.
Definitions are shallow embeddings of the TypeScript source; JS strings
are modelled as `String` (or `List Char` where character budgets matter),
`Map`/`Set` as insertion-ordered association lists / deduplicated lists,
and `Array.prototype.sort` (stable) as insertion sort.
-/

namespace ContextPack

/-! ## Segment compositor (`composeSegments`) -/

structure OutputSegment where
  text : List Char
  required : Bool
  label : Option String
deriving Repr, DecidableEq

structure ComposeResult where
  text : List Char
  truncated : Bool
  truncatedFiles : List String
  includedFiles : List String
deriving Repr, DecidableEq

structure ComposeState where
  text : List Char
  currentLength : Nat
  truncated : Bool
  optionalLimitReached : Bool
  includedFiles : List String
  truncatedFiles : List String
deriving Repr, DecidableEq

/-- JS truthiness of `segment.label`: present and nonempty. -/
def segLabel (seg : OutputSegment) : Option String :=
  match seg.label with
  | some l => if l = "" then none else some l
  | none => none

def pushLabel (labels : List String) (seg : OutputSegment) : List String :=
  match segLabel seg with
  | some l => labels ++ [l]
  | none => labels

/-- Labels of the optional (non-required) segments with a truthy label. -/
def optionalLabels (segments : List OutputSegment) : List String :=
  segments.filterMap (fun seg => if seg.required then none else segLabel seg)

/-- The post-loop pass of `composeSegments`: after a required-segment break at
`breakIndex`, labels of all later optional segments are recorded as truncated. -/
def collectTruncatedLabels (rest : List OutputSegment) (st : ComposeState) : ComposeState :=
  { st with truncatedFiles := st.truncatedFiles ++ optionalLabels rest }

/-- The main loop of `composeSegments` with a finite positive limit.
The `break` on a required segment that does not fit is modelled by running
`collectTruncatedLabels` on the unprocessed tail (exactly what the source's
post-loop over indices after `breakIndex` does) and stopping. -/
def composeLoop (limit : Nat) : List OutputSegment → ComposeState → ComposeState
  | [], st => st
  | seg :: rest, st =>
    if seg.required then
      if st.currentLength + seg.text.length ≤ limit then
        composeLoop limit rest
          { st with
            text := st.text ++ seg.text
            currentLength := st.currentLength + seg.text.length }
      else
        let remaining := limit - st.currentLength
        let st1 :=
          if 0 < remaining then
            { st with
              text := st.text ++ seg.text.take remaining
              currentLength := st.currentLength + remaining }
          else st
        collectTruncatedLabels rest { st1 with truncated := true }
    else if st.optionalLimitReached then
      composeLoop limit rest
        { st with
          truncated := true
          truncatedFiles := pushLabel st.truncatedFiles seg }
    else if st.currentLength + seg.text.length ≤ limit then
      composeLoop limit rest
        { st with
          text := st.text ++ seg.text
          currentLength := st.currentLength + seg.text.length
          includedFiles := pushLabel st.includedFiles seg }
    else
      composeLoop limit rest
        { st with
          truncated := true
          optionalLimitReached := true
          truncatedFiles := pushLabel st.truncatedFiles seg }

def initialComposeState : ComposeState :=
  { text := []
    currentLength := 0
    truncated := false
    optionalLimitReached := false
    includedFiles := []
    truncatedFiles := [] }

/-- `composeSegments(segments, maxChars)`. `maxChars = none` models an
absent or non-finite setting (`Number.isFinite` fails, `effectiveLimit`
is undefined); a present finite value is an integer (`Math.floor`ed). -/
def composeSegments (segments : List OutputSegment) (maxChars : Option Int) : ComposeResult :=
  let effectiveLimit : Option Nat :=
    match maxChars with
    | some m => if 0 < m then some m.toNat else none
    | none => none
  match effectiveLimit with
  | none =>
    { text := (segments.map (fun seg => seg.text)).flatten
      truncated := false
      truncatedFiles := []
      includedFiles := optionalLabels segments }
  | some limit =>
    let final := composeLoop limit segments initialComposeState
    { text := final.text
      truncated := final.truncated
      truncatedFiles := final.truncatedFiles
      includedFiles := final.includedFiles }

/-! ## Relevance tracker (`trackDocument`, `toggleManualTracking`,
`getTrackedSelections`) -/

/-- One record of the `counts` map of `getTrackedSelections`:
occurrence count and index of the most recent occurrence. -/
structure CountEntry where
  path : String
  count : Nat
  lastIndex : Nat
deriving Repr, DecidableEq

/-- One `history.forEach` step updating the `counts` map
(modelled as an insertion-ordered association list). -/
def updateCounts (acc : List CountEntry) (index : Nat) (entry : String) : List CountEntry :=
  if acc.any (fun e => e.path == entry) then
    acc.map (fun e =>
      if e.path == entry then { e with count := e.count + 1, lastIndex := index } else e)
  else
    acc ++ [{ path := entry, count := 1, lastIndex := index }]

def buildCounts (history : List String) : List CountEntry :=
  history.enum.foldl (fun acc p => updateCounts acc p.1 p.2) []

/-- The frequency comparator of `getTrackedSelections`, as the relation
"a may come before b": count descending, ties by lastIndex descending. -/
def freqLe (a b : CountEntry) : Bool :=
  if b.count != a.count then decide (b.count < a.count) else decide (b.lastIndex ≤ a.lastIndex)

def freqRel (a b : CountEntry) : Prop := freqLe a b = true

instance : DecidableRel freqRel := fun a b => instDecidableEqBool (freqLe a b) true

/-- `Array.prototype.sort` is stable; insertion sort models it. -/
def sortedByFrequency (history : List String) : List String :=
  (List.insertionSort freqRel (buildCounts history)).map (fun e => e.path)

structure SelState where
  files : List String
  treeHighlights : List String
  seen : List String
deriving Repr, DecidableEq

structure TrackedSelections where
  files : List String
  treeHighlights : List String
deriving Repr, DecidableEq

/-- `s.startsWith('..')`: the first two characters are dots. -/
def startsWithDotDot (s : String) : Bool :=
  match s.data with
  | c1 :: c2 :: _ => c1 == '.' && c2 == '.'
  | _ => false

/-- The `addFile` closure of `getTrackedSelections`. -/
def addFile (entry : String) (st : SelState) : SelState :=
  if entry = "" || startsWithDotDot entry || st.seen.contains entry then st
  else { st with seen := st.seen ++ [entry], files := st.files ++ [entry] }

/-- `treeHighlights.add(entry)` (a JS `Set`, insertion-ordered). -/
def highlightAdd (entry : String) (st : SelState) : SelState :=
  if st.treeHighlights.contains entry then st
  else { st with treeHighlights := st.treeHighlights ++ [entry] }

/-- Step 1: every manually pinned file is highlighted and added. -/
def selStage1 (manualFiles : List String) (st : SelState) : SelState :=
  manualFiles.foldl (fun acc file => addFile file (highlightAdd file acc)) st

/-- Step 2: every pinned directory is highlighted; its captured files are
highlighted and added. -/
def selStage2 (manualDirectories : List (String × List String)) (st : SelState) : SelState :=
  manualDirectories.foldl
    (fun acc entry =>
      entry.2.foldl (fun acc2 file => addFile file (highlightAdd file acc2))
        (highlightAdd entry.1 acc))
    st

/-- Step 3: the active document's path, when valid, is highlighted and added. -/
def selStage3 (activePath : Option String) (st : SelState) : SelState :=
  match activePath with
  | some p =>
    if !(p = "") && !(startsWithDotDot p) then addFile p (highlightAdd p st) else st
  | none => st

/-- The state after the pinned-files, pinned-directories and active-path
passes, before any dynamic (history) candidate is considered. -/
def pinnedActiveState (manualFiles : List String)
    (manualDirectories : List (String × List String))
    (activePath : Option String) : SelState :=
  selStage3 activePath
    (selStage2 manualDirectories
      (selStage1 manualFiles { files := [], treeHighlights := [], seen := [] }))

/-- Step 4: the frequency-ranked pass
(`for candidate of sortedByFrequency { if (files.length >= 3) break; ... }`). -/
def freqLoop (activePath : Option String) : List String → SelState → SelState
  | [], st => st
  | candidate :: rest, st =>
    if 3 ≤ st.files.length then st
    else if candidate = "" || activePath = some candidate then freqLoop activePath rest st
    else freqLoop activePath rest (addFile candidate (highlightAdd candidate st))

/-- Step 5: the recency fallback, scanning history newest-first
(the loop condition re-checks `files.length < 3` each iteration). -/
def fallbackLoop (activePath : Option String) : List String → SelState → SelState
  | [], st => st
  | candidate :: rest, st =>
    if 3 ≤ st.files.length then st
    else if candidate = "" || activePath = some candidate then fallbackLoop activePath rest st
    else fallbackLoop activePath rest (addFile candidate (highlightAdd candidate st))

/-- The selection state after all five passes of `getTrackedSelections`,
with the tracker state and the active document's (raw, pre-validation)
relative path as inputs. -/
def finalSelState (manualFiles : List String)
    (manualDirectories : List (String × List String))
    (history : List String) (activePath : Option String) : SelState :=
  let st3 := pinnedActiveState manualFiles manualDirectories activePath
  let st4 := freqLoop activePath (sortedByFrequency history) st3
  if st4.files.length < 3 then fallbackLoop activePath history.reverse st4 else st4

def getTrackedSelections (manualFiles : List String)
    (manualDirectories : List (String × List String))
    (history : List String) (activePath : Option String) : TrackedSelections :=
  let st5 := finalSelState manualFiles manualDirectories history activePath
  { files := st5.files, treeHighlights := st5.treeHighlights }

/-- Invariant of the selection state: everything marked as seen is in the
file list, and every file in the list has been added to `treeHighlights`. -/
def SelInv (st : SelState) : Prop :=
  (∀ q, q ∈ st.seen → q ∈ st.files) ∧ (∀ q, q ∈ st.files → q ∈ st.treeHighlights)

/-- `trackDocument`'s history bookkeeping for a document whose workspace
relative path is `relative`: append, then evict the oldest entry when the
history exceeds 10. -/
def trackDocument (history : List String) (relative : String) : List String :=
  if relative = "" || startsWithDotDot relative then history
  else
    let pushed := history ++ [relative]
    if 10 < pushed.length then pushed.tail else pushed

structure TrackerState where
  manualFiles : List String
  manualDirectories : List (String × List String)
deriving Repr, DecidableEq

/-- The directory branch of `toggleManualTracking`: unpin when present
(`Map.delete`), otherwise pin with the snapshot of collected files
(`Map.set`, appended in insertion order). `manualFiles` is not touched. -/
def toggleDirectoryTracking (tracker : TrackerState) (relative : String)
    (collectedFiles : List String) : TrackerState :=
  if tracker.manualDirectories.any (fun e => e.1 == relative) then
    { tracker with
      manualDirectories := tracker.manualDirectories.filter (fun e => !(e.1 == relative)) }
  else
    { tracker with
      manualDirectories := tracker.manualDirectories ++ [(relative, collectedFiles)] }

/-! ## Tree builder (`insertPath`, `sortTree`, `buildTree`) -/

inductive TreeNode where
  | mk (name : String) (isDir : Bool) (path : String) (children : List TreeNode)

def TreeNode.name : TreeNode → String
  | .mk n _ _ _ => n

def TreeNode.isDir : TreeNode → Bool
  | .mk _ d _ _ => d

def TreeNode.path : TreeNode → String
  | .mk _ _ p _ => p

def TreeNode.children : TreeNode → List TreeNode
  | .mk _ _ _ cs => cs

/-- `entry.path.split('/')` over the character list. -/
def splitCharsOn (sep : Char) : List Char → List (List Char)
  | [] => [[]]
  | c :: rest =>
    let r := splitCharsOn sep rest
    if c == sep then [] :: r
    else
      match r with
      | h :: t => (c :: h) :: t
      | [] => [[c]]

def splitSlash (s : String) : List String :=
  (splitCharsOn '/' s.data).map (fun l => String.mk l)

/-- Primary collation weight of a character (case-insensitive pass). -/
def charPrim (c : Char) : Nat := c.toLower.toNat

/-- Tertiary (case) collation weight: lowercase before uppercase. -/
def charCase (c : Char) : Nat := if c.isUpper then 1 else 0

/-- Non-strict lexicographic order on weight lists. -/
def natListLe : List Nat → List Nat → Bool
  | [], _ => true
  | _ :: _, [] => false
  | a :: as, b :: bs => decide (a < b) || (a == b && natListLe as bs)

/-- Model of `String.prototype.localeCompare` under the default (root)
collation, restricted to the ASCII range: a case-insensitive primary
comparison, with the case sequence (lowercase before uppercase) as the
tiebreaker. Read as "s sorts at or before t". -/
def localeLe (s t : String) : Bool :=
  if s.data.map charPrim = t.data.map charPrim then
    natListLe (s.data.map charCase) (t.data.map charCase)
  else natListLe (s.data.map charPrim) (t.data.map charPrim)

/-- The `sortTree` comparator, as the relation "a may come before b"
(comparator result `<= 0`): directories before files, ties by
`a.name.localeCompare(b.name)`. -/
def sortLe (a b : TreeNode) : Bool :=
  if a.isDir != b.isDir then a.isDir else localeLe a.name b.name

def sortRel (a b : TreeNode) : Prop := sortLe a b = true

instance : DecidableRel sortRel := fun a b => instDecidableEqBool (sortLe a b) true

/-- `insertPath(node, parts, isDir)`: find or create the child named by the
head segment (an implicitly created intermediate node is a directory; an
existing leaf observed again as a directory is promoted), then recurse on
the remaining segments. -/
def insertPath : List String → Bool → TreeNode → TreeNode
  | [], _, node => node
  | head :: rest, isDir, .mk name nodeDir nodePath children =>
    if children.any (fun c => c.name == head) then
      TreeNode.mk name nodeDir nodePath (children.map (fun c =>
        if c.name == head then
          let c1 :=
            if rest.isEmpty && isDir then TreeNode.mk c.name true c.path c.children else c
          if rest.isEmpty then c1 else insertPath rest isDir c1
        else c))
    else
      let childPath := if nodePath = "" then head else nodePath ++ "/" ++ head
      let child := TreeNode.mk head (!rest.isEmpty || isDir) childPath []
      let child1 := if rest.isEmpty then child else insertPath rest isDir child
      TreeNode.mk name nodeDir nodePath (children ++ [child1])

mutual
/-- `sortTree`: order the sibling list with the comparator and recurse.
The source sorts the list in place and then recurses into each (sorted)
child; recursing first and then sorting yields the same tree, since the
comparator reads only `name` and `isDir`, which `sortTree` preserves. -/
def sortTree : TreeNode → TreeNode
  | .mk name isDir path children =>
    TreeNode.mk name isDir path (List.insertionSort sortRel (sortForest children))

def sortForest : List TreeNode → List TreeNode
  | [] => []
  | c :: cs => sortTree c :: sortForest cs
end

/-- All-pairs orderedness of one sibling list under `sortLe`. -/
def pairwiseSortLe : List TreeNode → Bool
  | [] => true
  | a :: l => l.all (fun b => sortLe a b) && pairwiseSortLe l

mutual
/-- Every sibling level of the tree is ordered under the comparator. -/
def treeSortedB : TreeNode → Bool
  | .mk _ _ _ children => pairwiseSortLe children && forestSortedB children

def forestSortedB : List TreeNode → Bool
  | [] => true
  | c :: cs => treeSortedB c && forestSortedB cs
end

structure TreeEntry where
  path : String
  isDir : Bool
deriving Repr, DecidableEq

/-- `buildTree` up to rendering: start from the root node, insert every
entry's path, then sort the whole tree. -/
def buildTreeRoot (entries : List TreeEntry) (rootName : String) : TreeNode :=
  sortTree (entries.foldl (fun node e => insertPath (splitSlash e.path) e.isDir node)
    (TreeNode.mk rootName true "" []))

/-- Modelled from the spec: the "case-sensitive lexicographic name
comparison" the spec states for sibling ties — plain code-point order
(missing from the source, which uses `localeCompare` instead). -/
def lexLe (s t : String) : Bool :=
  natListLe (s.data.map Char.toNat) (t.data.map Char.toNat)

/-! ## Lemmas about the segment compositor -/

theorem collectTruncatedLabels_text (rest : List OutputSegment) (st : ComposeState) :
    (collectTruncatedLabels rest st).text = st.text := rfl

theorem optionalLabels_cons (seg : OutputSegment) (rest : List OutputSegment) :
    optionalLabels (seg :: rest) =
      (if seg.required then [] else (segLabel seg).toList) ++ optionalLabels rest := by
  unfold optionalLabels
  rw [List.filterMap_cons]
  by_cases h : seg.required
  · simp [h]
  · simp only [h, if_neg, Bool.not_eq_true] at *
    cases hl : segLabel seg <;> simp [h, hl]

theorem pushLabel_eq (labels : List String) (seg : OutputSegment) :
    pushLabel labels seg = labels ++ (segLabel seg).toList := by
  unfold pushLabel
  cases segLabel seg <;> simp

/-- Invariant of the compose loop: the running length equals the emitted
text's length and stays within the limit. -/
theorem composeLoop_length (limit : Nat) (segs : List OutputSegment) (st : ComposeState)
    (h1 : st.currentLength = st.text.length) (h2 : st.currentLength ≤ limit) :
    (composeLoop limit segs st).currentLength = (composeLoop limit segs st).text.length ∧
      (composeLoop limit segs st).currentLength ≤ limit := by
  induction segs generalizing st with
  | nil => exact ⟨h1, h2⟩
  | cons seg rest ih =>
    rw [composeLoop]
    by_cases hreq : seg.required
    · simp only [hreq, if_pos]
      by_cases hfit : st.currentLength + seg.text.length ≤ limit
      · simp only [hfit, if_pos]
        exact ih _ (by simp [h1, List.length_append]) hfit
      · simp only [hfit, if_neg, not_false_iff]
        by_cases hrem : 0 < limit - st.currentLength
        · simp only [hrem, if_pos]
          constructor
          · simp [collectTruncatedLabels, h1, List.length_take]
            omega
          · simp [collectTruncatedLabels]
            omega
        · simp only [hrem, if_neg, not_false_iff]
          exact ⟨h1, h2⟩
    · simp only [hreq, if_neg, not_false_iff]
      by_cases hlr : st.optionalLimitReached
      · simp only [hlr, if_pos]
        exact ih _ h1 h2
      · simp only [hlr, if_neg, not_false_iff]
        by_cases hfit : st.currentLength + seg.text.length ≤ limit
        · simp only [hfit, if_pos]
          exact ih _ (by simp [h1, List.length_append]) hfit
        · simp only [hfit, if_neg, not_false_iff]
          exact ih _ h1 h2

/-- Once `truncated` is set it is never cleared. -/
theorem composeLoop_truncated_mono (limit : Nat) (segs : List OutputSegment)
    (st : ComposeState) (h : st.truncated = true) :
    (composeLoop limit segs st).truncated = true := by
  induction segs generalizing st with
  | nil => exact h
  | cons seg rest ih =>
    rw [composeLoop]
    by_cases hreq : seg.required
    · simp only [hreq, if_pos]
      by_cases hfit : st.currentLength + seg.text.length ≤ limit
      · simp only [hfit, if_pos]
        exact ih _ h
      · simp [hfit, collectTruncatedLabels]
    · simp only [hreq, if_neg, not_false_iff]
      by_cases hlr : st.optionalLimitReached
      · simp only [hlr, if_pos]
        exact ih _ rfl
      · simp only [hlr, if_neg, not_false_iff]
        by_cases hfit : st.currentLength + seg.text.length ≤ limit
        · simp only [hfit, if_pos]
          exact ih _ h
        · simp only [hfit, if_neg, not_false_iff]
          exact ih _ rfl

/-- After the optional "limit reached" latch is set: no optional segment is
ever included again, every remaining optional label lands in the truncated
list in order, and (when only optional segments remain) no text is added. -/
theorem composeLoop_latched (limit : Nat) (segs : List OutputSegment) (st : ComposeState)
    (h : st.optionalLimitReached = true) :
    (composeLoop limit segs st).includedFiles = st.includedFiles ∧
      (composeLoop limit segs st).truncatedFiles = st.truncatedFiles ++ optionalLabels segs ∧
      ((∀ s ∈ segs, s.required = false) → (composeLoop limit segs st).text = st.text) := by
  induction segs generalizing st with
  | nil => simp [composeLoop, optionalLabels]
  | cons seg rest ih =>
    rw [composeLoop, optionalLabels_cons]
    by_cases hreq : seg.required
    · simp only [hreq, if_pos, if_true]
      by_cases hfit : st.currentLength + seg.text.length ≤ limit
      · simp only [hfit, if_pos]
        obtain ⟨i1, i2, _⟩ := ih { st with
            text := st.text ++ seg.text
            currentLength := st.currentLength + seg.text.length } h
        refine ⟨i1, by simpa using i2, ?_⟩
        intro hall
        exact absurd hreq (by simpa using hall seg (by simp))
      · simp only [hfit, if_neg, not_false_iff]
        refine ⟨?_, ?_, ?_⟩
        · simp only [collectTruncatedLabels]
          split <;> rfl
        · simp only [collectTruncatedLabels, List.nil_append]
          split <;> simp
        · intro hall
          exact absurd hreq (by simpa using hall seg (by simp))
    · rw [if_neg hreq, if_pos h]
      obtain ⟨i1, i2, i3⟩ := ih { st with
          truncated := true
          truncatedFiles := pushLabel st.truncatedFiles seg } h
      refine ⟨i1, ?_, fun hall => i3 (fun s hs => hall s (List.mem_cons_of_mem _ hs))⟩
      rw [i2]
      show pushLabel st.truncatedFiles seg ++ optionalLabels rest = _
      rw [pushLabel_eq, if_neg hreq, List.append_assoc]

/-- With a present, finite, positive limit the compositor runs the main loop
from the initial state. -/
theorem composeSegments_pos (segments : List OutputSegment) (m : Nat) (hm : 0 < m) :
    composeSegments segments (some (m : Int))
      = { text := (composeLoop m segments initialComposeState).text
          truncated := (composeLoop m segments initialComposeState).truncated
          truncatedFiles := (composeLoop m segments initialComposeState).truncatedFiles
          includedFiles := (composeLoop m segments initialComposeState).includedFiles } := by
  have hpos : (0 : Int) < (m : Int) := by exact_mod_cast hm
  simp [composeSegments, hpos, Int.toNat_natCast]

/-- C3: for every segment list and every finite positive limit, the total
length of the text returned by the compositor never exceeds the limit. -/
theorem claim_C3 (segments : List OutputSegment) (m : Nat) (hm : 0 < m) :
    (composeSegments segments (some (m : Int))).text.length ≤ m := by
  rw [composeSegments_pos segments m hm]
  show (composeLoop m segments initialComposeState).text.length ≤ m
  obtain ⟨h1, h2⟩ := composeLoop_length m segments initialComposeState rfl (Nat.zero_le m)
  omega

theorem claim_C3_witness :
    0 < 5 ∧
      (composeSegments [{ text := "abcdefgh".data, required := true, label := none }]
          (some (5 : Int))).text.length ≤ 5 :=
  ⟨by decide, claim_C3 [{ text := "abcdefgh".data, required := true, label := none }] 5
    (by decide)⟩

/-- C4: a required segment that does not fit is sliced to the remaining
budget (possibly empty), `truncated` is set, and composition stops: no later
segment contributes text or gets included, while the labels of the later
optional segments are still recorded as truncated.  In particular, with
limit 10 and a single required 13-character segment, the output is exactly
the 10-character prefix with `truncated = true`. -/
theorem claim_C4 :
    (∀ (limit : Nat) (st : ComposeState) (seg : OutputSegment) (rest : List OutputSegment),
        seg.required = true →
        limit < st.currentLength + seg.text.length →
        (composeLoop limit (seg :: rest) st).text
            = st.text ++ seg.text.take (limit - st.currentLength) ∧
          (composeLoop limit (seg :: rest) st).truncated = true ∧
          (composeLoop limit (seg :: rest) st).includedFiles = st.includedFiles ∧
          (composeLoop limit (seg :: rest) st).truncatedFiles
            = st.truncatedFiles ++ optionalLabels rest) ∧
      composeSegments [{ text := "1234567890123".data, required := true, label := none }]
          (some (10 : Int))
        = { text := "1234567890".data, truncated := true, truncatedFiles := [],
            includedFiles := [] } := by
  constructor
  · intro limit st seg rest hreq hover
    rw [composeLoop, if_pos hreq, if_neg (by omega)]
    by_cases hrem : 0 < limit - st.currentLength
    · have hlt : st.currentLength < limit := by omega
      simp [hlt, collectTruncatedLabels]
    · have h0 : limit - st.currentLength = 0 := by omega
      have hnlt : ¬ st.currentLength < limit := by omega
      simp [hnlt, collectTruncatedLabels, h0]
  · decide

theorem claim_C4_witness :
    (composeLoop 4
        [{ text := "abcdef".data, required := true, label := none },
         { text := "gh".data, required := false, label := some "later" }]
        initialComposeState).text
      = initialComposeState.text
          ++ "abcdef".data.take (4 - initialComposeState.currentLength) :=
  (claim_C4.1 4 initialComposeState
    { text := "abcdef".data, required := true, label := none }
    [{ text := "gh".data, required := false, label := some "later" }]
    rfl (by decide)).1

/-- C5: the first optional segment that does not fit is dropped whole (never
sliced), its label is recorded as truncated and `truncated` is set; from
then on every subsequent optional segment is dropped and recorded as
truncated without re-checking fit, and contributes no text.  In particular,
with limit 5 on [required "abc", optional f1 "defgh"] the output is "abc",
`truncatedLabels = [f1]`, `includedLabels = []`. -/
theorem claim_C5 :
    (∀ (limit : Nat) (st : ComposeState) (seg : OutputSegment) (rest : List OutputSegment),
        seg.required = false →
        st.optionalLimitReached = false →
        limit < st.currentLength + seg.text.length →
        (composeLoop limit (seg :: rest) st).truncated = true ∧
          (composeLoop limit (seg :: rest) st).includedFiles = st.includedFiles ∧
          (composeLoop limit (seg :: rest) st).truncatedFiles
            = (st.truncatedFiles ++ (segLabel seg).toList) ++ optionalLabels rest ∧
          ((∀ s ∈ rest, s.required = false) →
            (composeLoop limit (seg :: rest) st).text = st.text)) ∧
      composeSegments
          [{ text := "abc".data, required := true, label := none },
           { text := "defgh".data, required := false, label := some "f1" }] (some (5 : Int))
        = { text := "abc".data, truncated := true, truncatedFiles := ["f1"],
            includedFiles := [] } := by
  constructor
  · intro limit st seg rest hreq hlatch hover
    rw [composeLoop, if_neg (by simp [hreq]), if_neg (by simp [hlatch]), if_neg (by omega)]
    refine ⟨composeLoop_truncated_mono _ _ _ rfl, ?_, ?_, ?_⟩
    · exact (composeLoop_latched _ _ _ rfl).1
    · rw [(composeLoop_latched _ _ _ rfl).2.1]
      show pushLabel st.truncatedFiles seg ++ optionalLabels rest = _
      rw [pushLabel_eq]
    · exact fun hall => (composeLoop_latched _ _ _ rfl).2.2 hall
  · decide

theorem claim_C5_witness :
    (composeLoop 5
        [{ text := "defgh".data, required := false, label := some "f1" }]
        { text := "abc".data, currentLength := 3, truncated := false,
          optionalLimitReached := false, includedFiles := [], truncatedFiles := [] }).truncatedFiles
      = (([] : List String)
            ++ (segLabel { text := "defgh".data, required := false, label := some "f1" }).toList)
          ++ optionalLabels [] :=
  (claim_C5.1 5
    { text := "abc".data, currentLength := 3, truncated := false,
      optionalLimitReached := false, includedFiles := [], truncatedFiles := [] }
    { text := "defgh".data, required := false, label := some "f1" } []
    rfl rfl (by decide)).2.2.1

/-- Each optional segment's (truthy) label is charged to exactly one of the
two report lists, exactly once. -/
theorem composeLoop_count (limit : Nat) (segs : List OutputSegment) (st : ComposeState)
    (x : String) :
    (composeLoop limit segs st).includedFiles.count x
        + (composeLoop limit segs st).truncatedFiles.count x
      = st.includedFiles.count x + st.truncatedFiles.count x
        + (optionalLabels segs).count x := by
  induction segs generalizing st with
  | nil => simp [composeLoop, optionalLabels]
  | cons seg rest ih =>
    rw [composeLoop, optionalLabels_cons]
    by_cases hreq : seg.required
    · rw [if_pos hreq, if_pos hreq]
      by_cases hfit : st.currentLength + seg.text.length ≤ limit
      · rw [if_pos hfit, ih]
        simp
      · rw [if_neg hfit]
        simp only [collectTruncatedLabels]
        split <;> simp [List.count_append] <;> omega
    · rw [if_neg hreq, if_neg hreq]
      by_cases hlatch : st.optionalLimitReached
      · rw [if_pos hlatch, ih, pushLabel_eq]
        simp only [Bool.not_eq_true] at hreq
        simp [List.count_append]
        omega
      · rw [if_neg hlatch]
        by_cases hfit : st.currentLength + seg.text.length ≤ limit
        · rw [if_pos hfit, ih, pushLabel_eq]
          simp only [Bool.not_eq_true] at hreq
          simp [List.count_append]
          omega
        · rw [if_neg hfit, ih, pushLabel_eq]
          simp only [Bool.not_eq_true] at hreq
          simp [List.count_append]
          omega

/-- C10: with pairwise-distinct optional labels and a finite positive limit,
each label goes to at most one of `includedFiles`/`truncatedFiles`, and
neither list repeats a label. -/
theorem claim_C10 (segments : List OutputSegment) (m : Nat) (hm : 0 < m)
    (hnd : (optionalLabels segments).Nodup) :
    (composeSegments segments (some (m : Int))).includedFiles.Nodup ∧
      (composeSegments segments (some (m : Int))).truncatedFiles.Nodup ∧
      ∀ x ∈ (composeSegments segments (some (m : Int))).includedFiles,
        x ∉ (composeSegments segments (some (m : Int))).truncatedFiles := by
  rw [composeSegments_pos segments m hm]
  dsimp only
  have hcount : ∀ x, (composeLoop m segments initialComposeState).includedFiles.count x
      + (composeLoop m segments initialComposeState).truncatedFiles.count x
      = (optionalLabels segments).count x := by
    intro x
    have := composeLoop_count m segments initialComposeState x
    simpa [initialComposeState] using this
  have hle : ∀ x, (optionalLabels segments).count x ≤ 1 :=
    List.nodup_iff_count_le_one.mp hnd
  refine ⟨?_, ?_, ?_⟩
  · rw [List.nodup_iff_count_le_one]
    intro a
    have h1 := hcount a
    have h2 := hle a
    omega
  · rw [List.nodup_iff_count_le_one]
    intro a
    have h1 := hcount a
    have h2 := hle a
    omega
  · intro x hx hx2
    have h1 : 0 < (composeLoop m segments initialComposeState).includedFiles.count x :=
      List.count_pos_iff.mpr hx
    have h2 : 0 < (composeLoop m segments initialComposeState).truncatedFiles.count x :=
      List.count_pos_iff.mpr hx2
    have h3 := hcount x
    have h4 := hle x
    omega

theorem claim_C10_witness :
    0 < 4 ∧
      (optionalLabels
          [{ text := "aa".data, required := false, label := some "f1" },
           { text := "bbb".data, required := false, label := some "f2" }]).Nodup ∧
      ((composeSegments
            [{ text := "aa".data, required := false, label := some "f1" },
             { text := "bbb".data, required := false, label := some "f2" }]
            (some (4 : Int))).includedFiles.Nodup ∧
        (composeSegments
            [{ text := "aa".data, required := false, label := some "f1" },
             { text := "bbb".data, required := false, label := some "f2" }]
            (some (4 : Int))).truncatedFiles.Nodup ∧
        ∀ x ∈ (composeSegments
            [{ text := "aa".data, required := false, label := some "f1" },
             { text := "bbb".data, required := false, label := some "f2" }]
            (some (4 : Int))).includedFiles,
          x ∉ (composeSegments
            [{ text := "aa".data, required := false, label := some "f1" },
             { text := "bbb".data, required := false, label := some "f2" }]
            (some (4 : Int))).truncatedFiles) :=
  ⟨by decide, by decide,
    claim_C10
      [{ text := "aa".data, required := false, label := some "f1" },
       { text := "bbb".data, required := false, label := some "f2" }] 4
      (by decide) (by decide)⟩

/-! ## Lemmas about the relevance tracker -/

theorem highlightAdd_files (e : String) (st : SelState) :
    (highlightAdd e st).files = st.files := by
  unfold highlightAdd
  split <;> rfl

theorem highlightAdd_seen (e : String) (st : SelState) :
    (highlightAdd e st).seen = st.seen := by
  unfold highlightAdd
  split <;> rfl

theorem highlightAdd_mem (e : String) (st : SelState) :
    e ∈ (highlightAdd e st).treeHighlights := by
  unfold highlightAdd
  split
  · next hc => simpa using hc
  · simp

theorem highlightAdd_mono (e q : String) (st : SelState)
    (h : q ∈ st.treeHighlights) : q ∈ (highlightAdd e st).treeHighlights := by
  unfold highlightAdd
  split
  · exact h
  · exact List.mem_append_left _ h

theorem addFile_eq_or (e : String) (st : SelState) :
    addFile e st = st ∨
      addFile e st = { st with seen := st.seen ++ [e], files := st.files ++ [e] } := by
  unfold addFile
  split
  · exact Or.inl rfl
  · exact Or.inr rfl

theorem addFile_files_mono (e q : String) (st : SelState)
    (h : q ∈ st.files) : q ∈ (addFile e st).files := by
  rcases addFile_eq_or e st with heq | heq <;> rw [heq]
  · exact h
  · exact List.mem_append_left _ h

theorem addFile_length (e : String) (st : SelState) :
    (addFile e st).files.length ≤ st.files.length + 1 := by
  rcases addFile_eq_or e st with heq | heq <;> rw [heq]
  · omega
  · simp

theorem addFile_adds (e : String) (st : SelState)
    (hne : e ≠ "") (hdd : startsWithDotDot e = false)
    (hseen : ∀ q, q ∈ st.seen → q ∈ st.files) :
    e ∈ (addFile e st).files := by
  unfold addFile
  split
  · next hcond =>
    have hc2 : e ∈ st.seen := by
      rcases (Bool.or_eq_true _ _).mp hcond with h1 | h2
      · rcases (Bool.or_eq_true _ _).mp h1 with h3 | h4
        · exact absurd (of_decide_eq_true h3) hne
        · exact absurd h4 (by simp [hdd])
      · simpa using h2
    exact hseen e hc2
  · simp

theorem SelInv_highlightAdd (e : String) (st : SelState) (h : SelInv st) :
    SelInv (highlightAdd e st) := by
  obtain ⟨h1, h2⟩ := h
  constructor <;> intro q hq
  · rw [highlightAdd_seen] at hq
    rw [highlightAdd_files]
    exact h1 q hq
  · rw [highlightAdd_files] at hq
    exact highlightAdd_mono e q st (h2 q hq)

theorem SelInv_step (x : String) (st : SelState) (h : SelInv st) :
    SelInv (addFile x (highlightAdd x st)) := by
  obtain ⟨h1, h2⟩ := SelInv_highlightAdd x st h
  rcases addFile_eq_or x (highlightAdd x st) with heq | heq <;> rw [heq]
  · exact ⟨h1, h2⟩
  · constructor <;> intro q hq
    · rcases List.mem_append.mp hq with hq | hq
      · exact List.mem_append_left _ (h1 q hq)
      · exact List.mem_append_right _ hq
    · rcases List.mem_append.mp hq with hq | hq
      · exact h2 q hq
      · rw [List.mem_singleton] at hq
        subst hq
        exact highlightAdd_mem q st

theorem step_files_mono (x q : String) (st : SelState)
    (h : q ∈ st.files) : q ∈ (addFile x (highlightAdd x st)).files := by
  apply addFile_files_mono
  rw [highlightAdd_files]
  exact h

/-- The fold shared by the pinned-file pass and the pinned-directory pass. -/
theorem stepFold_inv (l : List String) (st : SelState) (h : SelInv st) :
    SelInv (l.foldl (fun acc file => addFile file (highlightAdd file acc)) st) := by
  induction l generalizing st with
  | nil => exact h
  | cons a l ih => exact ih _ (SelInv_step a st h)

theorem stepFold_files_mono (l : List String) (q : String) (st : SelState)
    (h : q ∈ st.files) :
    q ∈ (l.foldl (fun acc file => addFile file (highlightAdd file acc)) st).files := by
  induction l generalizing st with
  | nil => exact h
  | cons a l ih => exact ih _ (step_files_mono a q st h)

theorem stepFold_adds (l : List String) (p : String)
    (hne : p ≠ "") (hdd : startsWithDotDot p = false) :
    ∀ st : SelState, SelInv st → p ∈ l →
      p ∈ (l.foldl (fun acc file => addFile file (highlightAdd file acc)) st).files := by
  induction l with
  | nil => intro st _ hp; cases hp
  | cons a l ih =>
    intro st hinv hp
    rw [List.foldl_cons]
    rcases List.mem_cons.mp hp with rfl | hmem
    · apply stepFold_files_mono
      exact addFile_adds p _ hne hdd (SelInv_highlightAdd p st hinv).1
    · exact ih _ (SelInv_step a st hinv) hmem

theorem selStage1_inv (manualFiles : List String) (st : SelState) (h : SelInv st) :
    SelInv (selStage1 manualFiles st) :=
  stepFold_inv manualFiles st h

theorem selStage1_files_mono (manualFiles : List String) (q : String) (st : SelState)
    (h : q ∈ st.files) : q ∈ (selStage1 manualFiles st).files :=
  stepFold_files_mono manualFiles q st h

theorem selStage2_inv (manualDirectories : List (String × List String)) (st : SelState)
    (h : SelInv st) : SelInv (selStage2 manualDirectories st) := by
  induction manualDirectories generalizing st with
  | nil => exact h
  | cons d l ih => exact ih _ (stepFold_inv d.2 _ (SelInv_highlightAdd d.1 st h))

theorem selStage2_files_mono (manualDirectories : List (String × List String))
    (q : String) (st : SelState) (h : q ∈ st.files) :
    q ∈ (selStage2 manualDirectories st).files := by
  induction manualDirectories generalizing st with
  | nil => exact h
  | cons d l ih =>
    apply ih
    apply stepFold_files_mono
    rw [highlightAdd_files]
    exact h

theorem selStage3_inv (activePath : Option String) (st : SelState) (h : SelInv st) :
    SelInv (selStage3 activePath st) := by
  cases activePath with
  | none => exact h
  | some p =>
    show SelInv
      (if !(p = "") && !(startsWithDotDot p) then addFile p (highlightAdd p st) else st)
    split
    · exact SelInv_step _ st h
    · exact h

theorem selStage3_files_mono (activePath : Option String) (q : String) (st : SelState)
    (h : q ∈ st.files) : q ∈ (selStage3 activePath st).files := by
  cases activePath with
  | none => exact h
  | some p =>
    show q ∈
      (if !(p = "") && !(startsWithDotDot p) then addFile p (highlightAdd p st) else st).files
    split
    · exact step_files_mono _ q st h
    · exact h

theorem freqLoop_inv (activePath : Option String) (l : List String) (st : SelState)
    (h : SelInv st) : SelInv (freqLoop activePath l st) := by
  induction l generalizing st with
  | nil => exact h
  | cons a l ih =>
    rw [freqLoop]
    split
    · exact h
    · split
      · exact ih _ h
      · exact ih _ (SelInv_step a st h)

theorem freqLoop_files_mono (activePath : Option String) (l : List String) (q : String)
    (st : SelState) (h : q ∈ st.files) : q ∈ (freqLoop activePath l st).files := by
  induction l generalizing st with
  | nil => exact h
  | cons a l ih =>
    rw [freqLoop]
    split
    · exact h
    · split
      · exact ih _ h
      · exact ih _ (step_files_mono a q st h)

theorem freqLoop_cases (activePath : Option String) (l : List String) (st : SelState) :
    freqLoop activePath l st = st ∨ (freqLoop activePath l st).files.length ≤ 3 := by
  induction l generalizing st with
  | nil => exact Or.inl rfl
  | cons a l ih =>
    rw [freqLoop]
    split
    · exact Or.inl rfl
    · next h3 =>
      split
      · exact ih st
      · right
        have hlen : (addFile a (highlightAdd a st)).files.length ≤ st.files.length + 1 := by
          have := addFile_length a (highlightAdd a st)
          rwa [highlightAdd_files] at this
        rcases ih (addFile a (highlightAdd a st)) with heq | hle
        · rw [heq]; omega
        · exact hle

theorem fallbackLoop_inv (activePath : Option String) (l : List String) (st : SelState)
    (h : SelInv st) : SelInv (fallbackLoop activePath l st) := by
  induction l generalizing st with
  | nil => exact h
  | cons a l ih =>
    rw [fallbackLoop]
    split
    · exact h
    · split
      · exact ih _ h
      · exact ih _ (SelInv_step a st h)

theorem fallbackLoop_files_mono (activePath : Option String) (l : List String) (q : String)
    (st : SelState) (h : q ∈ st.files) : q ∈ (fallbackLoop activePath l st).files := by
  induction l generalizing st with
  | nil => exact h
  | cons a l ih =>
    rw [fallbackLoop]
    split
    · exact h
    · split
      · exact ih _ h
      · exact ih _ (step_files_mono a q st h)

theorem fallbackLoop_cases (activePath : Option String) (l : List String) (st : SelState) :
    fallbackLoop activePath l st = st ∨ (fallbackLoop activePath l st).files.length ≤ 3 := by
  induction l generalizing st with
  | nil => exact Or.inl rfl
  | cons a l ih =>
    rw [fallbackLoop]
    split
    · exact Or.inl rfl
    · next h3 =>
      split
      · exact ih st
      · right
        have hlen : (addFile a (highlightAdd a st)).files.length ≤ st.files.length + 1 := by
          have := addFile_length a (highlightAdd a st)
          rwa [highlightAdd_files] at this
        rcases ih (addFile a (highlightAdd a st)) with heq | hle
        · rw [heq]; omega
        · exact hle

theorem SelInv_initial : SelInv { files := [], treeHighlights := [], seen := [] } := by
  constructor <;> intro q hq <;> cases hq

theorem pinnedActiveState_inv (manualFiles : List String)
    (manualDirectories : List (String × List String)) (activePath : Option String) :
    SelInv (pinnedActiveState manualFiles manualDirectories activePath) :=
  selStage3_inv _ _ (selStage2_inv _ _ (selStage1_inv _ _ SelInv_initial))

theorem finalSelState_eq (manualFiles : List String)
    (manualDirectories : List (String × List String))
    (history : List String) (activePath : Option String) :
    finalSelState manualFiles manualDirectories history activePath
      = if (freqLoop activePath (sortedByFrequency history)
            (pinnedActiveState manualFiles manualDirectories activePath)).files.length < 3
        then fallbackLoop activePath history.reverse
          (freqLoop activePath (sortedByFrequency history)
            (pinnedActiveState manualFiles manualDirectories activePath))
        else freqLoop activePath (sortedByFrequency history)
          (pinnedActiveState manualFiles manualDirectories activePath) := rfl

theorem finalSelState_inv (manualFiles : List String)
    (manualDirectories : List (String × List String))
    (history : List String) (activePath : Option String) :
    SelInv (finalSelState manualFiles manualDirectories history activePath) := by
  rw [finalSelState_eq]
  have h3 := pinnedActiveState_inv manualFiles manualDirectories activePath
  have h4 := freqLoop_inv activePath (sortedByFrequency history) _ h3
  split
  · exact fallbackLoop_inv _ _ _ h4
  · exact h4

theorem finalSelState_files_mono (manualFiles : List String)
    (manualDirectories : List (String × List String))
    (history : List String) (activePath : Option String) (q : String)
    (h : q ∈ (pinnedActiveState manualFiles manualDirectories activePath).files) :
    q ∈ (finalSelState manualFiles manualDirectories history activePath).files := by
  rw [finalSelState_eq]
  have h4 := freqLoop_files_mono activePath (sortedByFrequency history) q _ h
  split
  · exact fallbackLoop_files_mono _ _ _ _ h4
  · exact h4

/-! ## Claims about the relevance tracker -/

/-- C9: every path in the candidate file list is also in the returned
highlight set, including the frequency-ranked and recency-fallback
candidates. -/
theorem claim_C9 (manualFiles : List String)
    (manualDirectories : List (String × List String))
    (history : List String) (activePath : Option String) (p : String)
    (hp : p ∈ (getTrackedSelections manualFiles manualDirectories history activePath).files) :
    p ∈ (getTrackedSelections manualFiles manualDirectories history activePath).treeHighlights :=
  (finalSelState_inv manualFiles manualDirectories history activePath).2 p hp

theorem claim_C9_witness :
    "a" ∈ (getTrackedSelections ["a"] [] [] none).files ∧
      "a" ∈ (getTrackedSelections ["a"] [] [] none).treeHighlights :=
  ⟨by decide, claim_C9 ["a"] [] [] none "a" (by decide)⟩

/-- C1 (amended): dynamic slots from history are filled only until the
combined file list — counting the pinned entries — reaches 3: every valid
pinned file is always included, but when the pinned/active passes have
already produced 3 or more entries, no dynamic entry is added at all, so
the final list length never exceeds the larger of the pinned/active count
and 3. -/
theorem claim_C1 (manualFiles : List String)
    (manualDirectories : List (String × List String))
    (history : List String) (activePath : Option String) :
    (∀ p ∈ manualFiles, p ≠ "" → startsWithDotDot p = false →
        p ∈ (getTrackedSelections manualFiles manualDirectories history activePath).files) ∧
      (getTrackedSelections manualFiles manualDirectories history activePath).files.length
        ≤ max (pinnedActiveState manualFiles manualDirectories activePath).files.length 3 := by
  constructor
  · intro p hp hne hdd
    apply finalSelState_files_mono
    apply selStage3_files_mono
    apply selStage2_files_mono
    exact stepFold_adds manualFiles p hne hdd _ SelInv_initial hp
  · show (finalSelState manualFiles manualDirectories history activePath).files.length ≤ _
    rw [finalSelState_eq]
    rcases freqLoop_cases activePath (sortedByFrequency history)
        (pinnedActiveState manualFiles manualDirectories activePath) with h4 | h4
    · rw [h4]
      split
      · rcases fallbackLoop_cases activePath history.reverse _ with h5 | h5
        · rw [h5]
          exact Nat.le_max_left _ _
        · exact le_trans h5 (Nat.le_max_right _ _)
      · exact Nat.le_max_left _ _
    · split
      · rcases fallbackLoop_cases activePath history.reverse _ with h5 | h5
        · rw [h5]
          exact le_trans h4 (Nat.le_max_right _ _)
        · exact le_trans h5 (Nat.le_max_right _ _)
      · exact le_trans h4 (Nat.le_max_right _ _)

theorem claim_C1_witness :
    "p" ∈ (getTrackedSelections ["p"] [] ["h1"] none).files :=
  (claim_C1 ["p"] [] ["h1"] none).1 "p" (by decide) (by decide) (by decide)

/-- C1 counterexample: with three pinned files, a three-entry history of
distinct non-pinned paths and no active document, the candidate list is
exactly the pins — no dynamic (history) entry is included, although three
non-pinned history candidates exist. -/
theorem claim_C1_counterexample :
    (getTrackedSelections ["p1", "p2", "p3"] [] ["h1", "h2", "h3"] none).files
        = ["p1", "p2", "p3"] ∧
      "h1" ∉ (getTrackedSelections ["p1", "p2", "p3"] [] ["h1", "h2", "h3"] none).files := by
  decide

/-- C6: history `[x, x, y]`, no pins, active path `z` not in the history:
the candidate list is `[z, x, y]` — active first, then history ranked by
frequency descending with recency tie-break. -/
theorem claim_C6 :
    (getTrackedSelections [] [] ["x", "x", "y"] (some "z")).files = ["z", "x", "y"] := by
  decide

/-- C7: the history never exceeds 10 entries under any sequence of
document-activation events, and an activation recorded on a full history
evicts exactly the oldest entry (FIFO). -/
theorem claim_C7 :
    (∀ events : List String, (events.foldl trackDocument []).length ≤ 10) ∧
      ∀ (history : List String) (p : String), history.length = 10 → p ≠ "" →
        startsWithDotDot p = false →
        trackDocument history p = history.tail ++ [p] := by
  constructor
  · have hstep : ∀ (h : List String) (p : String), h.length ≤ 10 →
        (trackDocument h p).length ≤ 10 := by
      intro h p hlen
      unfold trackDocument
      split
      · exact hlen
      · show (if 10 < (h ++ [p]).length then (h ++ [p]).tail else h ++ [p]).length ≤ 10
        split
        · rw [List.length_tail]
          simp only [List.length_append, List.length_singleton]
          omega
        · next hle =>
          simp only [List.length_append, List.length_singleton] at hle ⊢
          omega
    have hfold : ∀ (events : List String) (init : List String), init.length ≤ 10 →
        (events.foldl trackDocument init).length ≤ 10 := by
      intro events
      induction events with
      | nil => intro init h; exact h
      | cons e l ih => intro init h; exact ih _ (hstep init e h)
    intro events
    exact hfold events [] (by simp)
  · intro history p hlen hne hdd
    unfold trackDocument
    rw [if_neg (by simp [hne, hdd])]
    show (if 10 < (history ++ [p]).length then (history ++ [p]).tail else history ++ [p])
        = history.tail ++ [p]
    rw [if_pos (by simp [hlen])]
    cases history with
    | nil => simp at hlen
    | cons a t => simp

theorem claim_C7_witness :
    ((["a", "b", "a"].foldl trackDocument []).length ≤ 10) ∧
      trackDocument ["e0", "e1", "e2", "e3", "e4", "e5", "e6", "e7", "e8", "e9"] "e10"
        = ["e0", "e1", "e2", "e3", "e4", "e5", "e6", "e7", "e8", "e9"].tail ++ ["e10"] :=
  ⟨claim_C7.1 ["a", "b", "a"],
    claim_C7.2 ["e0", "e1", "e2", "e3", "e4", "e5", "e6", "e7", "e8", "e9"] "e10"
      (by decide) (by decide) (by decide)⟩

/-- C8: pinning a directory that was not pinned and then unpinning it
restores `manualDirectories` and leaves `manualFiles` untouched at both
steps — previously pinned individual files are neither removed nor
resurrected. -/
theorem claim_C8 (tracker : TrackerState) (dir : String)
    (files1 files2 : List String)
    (h : ∀ e ∈ tracker.manualDirectories, e.1 ≠ dir) :
    (toggleDirectoryTracking (toggleDirectoryTracking tracker dir files1) dir files2).manualDirectories
        = tracker.manualDirectories ∧
      (toggleDirectoryTracking tracker dir files1).manualFiles = tracker.manualFiles ∧
      (toggleDirectoryTracking (toggleDirectoryTracking tracker dir files1) dir files2).manualFiles
        = tracker.manualFiles := by
  have hany : tracker.manualDirectories.any (fun e => e.1 == dir) = false := by
    rw [List.any_eq_false]
    intro e he
    simpa using h e he
  have hst1 : toggleDirectoryTracking tracker dir files1
      = { tracker with manualDirectories := tracker.manualDirectories ++ [(dir, files1)] } := by
    unfold toggleDirectoryTracking
    rw [if_neg (by simp [hany])]
  rw [hst1]
  refine ⟨?_, rfl, ?_⟩ <;> unfold toggleDirectoryTracking
  · rw [if_pos (by simp)]
    show (tracker.manualDirectories ++ [(dir, files1)]).filter (fun e => !(e.1 == dir))
        = tracker.manualDirectories
    rw [List.filter_append]
    have h1 : tracker.manualDirectories.filter (fun e => !(e.1 == dir))
        = tracker.manualDirectories := by
      apply List.filter_eq_self.mpr
      intro e he
      simpa using h e he
    rw [h1]
    simp
  · rw [if_pos (by simp)]

theorem claim_C8_witness :
    (toggleDirectoryTracking
        (toggleDirectoryTracking
          { manualFiles := ["d/kept.txt"], manualDirectories := [("other", ["o1"])] }
          "d" ["d/x"])
        "d" []).manualDirectories = [("other", ["o1"])] ∧
      (toggleDirectoryTracking
          { manualFiles := ["d/kept.txt"], manualDirectories := [("other", ["o1"])] }
          "d" ["d/x"]).manualFiles = ["d/kept.txt"] ∧
      (toggleDirectoryTracking
          (toggleDirectoryTracking
            { manualFiles := ["d/kept.txt"], manualDirectories := [("other", ["o1"])] }
            "d" ["d/x"])
          "d" []).manualFiles = ["d/kept.txt"] :=
  claim_C8 { manualFiles := ["d/kept.txt"], manualDirectories := [("other", ["o1"])] }
    "d" ["d/x"] [] (by decide)

/-! ## Lemmas about the tree builder -/

theorem natListLe_total (a b : List Nat) : natListLe a b = true ∨ natListLe b a = true := by
  induction a generalizing b with
  | nil => left; rfl
  | cons x xs ih =>
    cases b with
    | nil => right; rfl
    | cons y ys =>
      rcases Nat.lt_trichotomy x y with h | h | h
      · left; simp [natListLe, h]
      · subst h
        rcases ih ys with h2 | h2
        · left; simp [natListLe, h2]
        · right; simp [natListLe, h2]
      · right; simp [natListLe, h]

theorem natListLe_trans (a b c : List Nat) (h1 : natListLe a b = true)
    (h2 : natListLe b c = true) : natListLe a c = true := by
  induction a generalizing b c with
  | nil => rfl
  | cons x xs ih =>
    cases b with
    | nil => simp [natListLe] at h1
    | cons y ys =>
      cases c with
      | nil => simp [natListLe] at h2
      | cons z zs =>
        simp only [natListLe, Bool.or_eq_true, Bool.and_eq_true, decide_eq_true_eq,
          beq_iff_eq] at h1 h2 ⊢
        rcases h1 with h1 | ⟨rfl, h1⟩
        · rcases h2 with h2 | ⟨rfl, h2⟩
          · left; omega
          · left; exact h1
        · rcases h2 with h2 | ⟨rfl, h2⟩
          · left; exact h2
          · right; exact ⟨rfl, ih ys zs h1 h2⟩

theorem natListLe_antisymm (a b : List Nat) (h1 : natListLe a b = true)
    (h2 : natListLe b a = true) : a = b := by
  induction a generalizing b with
  | nil =>
    cases b with
    | nil => rfl
    | cons y ys => simp [natListLe] at h2
  | cons x xs ih =>
    cases b with
    | nil => simp [natListLe] at h1
    | cons y ys =>
      simp only [natListLe, Bool.or_eq_true, Bool.and_eq_true, decide_eq_true_eq,
        beq_iff_eq] at h1 h2
      rcases h1 with h1 | ⟨rfl, h1⟩
      · rcases h2 with h2 | ⟨rfl, h2⟩
        · omega
        · omega
      · rcases h2 with h2 | ⟨hyx, h2⟩
        · omega
        · rw [ih ys h1 h2]

theorem localeLe_total (s t : String) : localeLe s t = true ∨ localeLe t s = true := by
  unfold localeLe
  by_cases hp : s.data.map charPrim = t.data.map charPrim
  · rw [if_pos hp, if_pos hp.symm]
    exact natListLe_total _ _
  · rw [if_neg hp, if_neg (fun h => hp h.symm)]
    exact natListLe_total _ _

theorem localeLe_trans (s t u : String) (h1 : localeLe s t = true)
    (h2 : localeLe t u = true) : localeLe s u = true := by
  unfold localeLe at h1 h2 ⊢
  by_cases hst : s.data.map charPrim = t.data.map charPrim
  · rw [if_pos hst] at h1
    by_cases htu : t.data.map charPrim = u.data.map charPrim
    · rw [if_pos htu] at h2
      rw [if_pos (hst.trans htu)]
      exact natListLe_trans _ _ _ h1 h2
    · rw [if_neg htu] at h2
      rw [if_neg (fun h => htu (hst.symm.trans h)), hst]
      exact h2
  · rw [if_neg hst] at h1
    by_cases htu : t.data.map charPrim = u.data.map charPrim
    · rw [if_pos htu] at h2
      rw [if_neg (fun h => hst (h.trans htu.symm)), ← htu]
      exact h1
    · rw [if_neg htu] at h2
      by_cases hsu : s.data.map charPrim = u.data.map charPrim
      · exact absurd (natListLe_antisymm _ _ h1 (hsu ▸ h2)) hst
      · rw [if_neg hsu]
        exact natListLe_trans _ _ _ h1 h2

theorem sortLe_total (a b : TreeNode) : sortLe a b = true ∨ sortLe b a = true := by
  unfold sortLe
  cases ha : a.isDir <;> cases hb : b.isDir <;> simp [ha, hb] <;>
    exact localeLe_total _ _

theorem sortLe_trans (a b c : TreeNode) (h1 : sortLe a b = true)
    (h2 : sortLe b c = true) : sortLe a c = true := by
  unfold sortLe at h1 h2 ⊢
  cases ha : a.isDir <;> cases hb : b.isDir <;> cases hc : c.isDir <;>
      simp [ha, hb, hc] at h1 h2 ⊢ <;>
    exact localeLe_trans _ _ _ h1 h2

theorem pairwiseSortLe_iff (l : List TreeNode) :
    pairwiseSortLe l = true ↔ List.Pairwise sortRel l := by
  induction l with
  | nil => simp [pairwiseSortLe]
  | cons a l ih =>
    rw [show pairwiseSortLe (a :: l)
        = (l.all (fun b => sortLe a b) && pairwiseSortLe l) from rfl]
    rw [Bool.and_eq_true, List.all_eq_true, List.pairwise_cons, ih]
    exact Iff.rfl

theorem forestSortedB_iff (l : List TreeNode) :
    forestSortedB l = true ↔ ∀ c ∈ l, treeSortedB c = true := by
  induction l with
  | nil => simp [forestSortedB]
  | cons a l ih =>
    rw [show forestSortedB (a :: l) = (treeSortedB a && forestSortedB l) from rfl]
    rw [Bool.and_eq_true, ih]
    simp

theorem sortForest_eq_map (l : List TreeNode) : sortForest l = l.map sortTree := by
  induction l with
  | nil => rfl
  | cons a l ih => rw [show sortForest (a :: l) = sortTree a :: sortForest l from rfl, ih]; rfl

theorem sortTree_sorted_aux :
    ∀ (n : Nat) (t : TreeNode), sizeOf t ≤ n → treeSortedB (sortTree t) = true := by
  intro n
  induction n with
  | zero =>
    intro t ht
    cases t with
    | mk nm d p cs => simp [TreeNode.mk.sizeOf_spec] at ht
  | succ n ih =>
    intro t ht
    cases t with
    | mk nm d p cs =>
      rw [show sortTree (TreeNode.mk nm d p cs)
          = TreeNode.mk nm d p (List.insertionSort sortRel (sortForest cs)) from rfl]
      rw [show treeSortedB (TreeNode.mk nm d p (List.insertionSort sortRel (sortForest cs)))
          = (pairwiseSortLe (List.insertionSort sortRel (sortForest cs))
            && forestSortedB (List.insertionSort sortRel (sortForest cs))) from rfl]
      rw [Bool.and_eq_true]
      constructor
      · rw [pairwiseSortLe_iff]
        haveI : IsTotal TreeNode sortRel := ⟨fun a b => sortLe_total a b⟩
        haveI : IsTrans TreeNode sortRel := ⟨fun a b c => sortLe_trans a b c⟩
        exact List.sorted_insertionSort sortRel _
      · rw [forestSortedB_iff]
        intro c hc
        have hc2 : c ∈ sortForest cs :=
          ((List.perm_insertionSort sortRel (sortForest cs)).mem_iff).mp hc
        rw [sortForest_eq_map] at hc2
        obtain ⟨x, hx, rfl⟩ := List.mem_map.mp hc2
        apply ih
        have h1 : sizeOf x < sizeOf cs := List.sizeOf_lt_of_mem hx
        have h2 : sizeOf (TreeNode.mk nm d p cs)
            = 1 + sizeOf nm + sizeOf d + sizeOf p + sizeOf cs := by
          simp [TreeNode.mk.sizeOf_spec]
        omega

theorem sortTree_sorted (t : TreeNode) : treeSortedB (sortTree t) = true :=
  sortTree_sorted_aux (sizeOf t) t le_rfl

/-! ## Claims about the tree builder -/

/-- C2 (amended): after a full tree build the children at every sibling
level are ordered with directories before files; ties within each group
are broken by the locale-aware name comparison the code performs
(`localeCompare`: case-insensitive primary order with a lowercase-first
case tiebreak, as modelled for ASCII), not by case-sensitive code-point
comparison. -/
theorem claim_C2 (entries : List TreeEntry) (rootName : String) :
    treeSortedB (buildTreeRoot entries rootName) = true :=
  sortTree_sorted _

/-- C2 counterexample: two sibling files named "B" and "a" are rendered in
the order ["a", "B"], which is not ascending under case-sensitive
lexicographic (code-point) comparison, since "a" > "B" there. -/
theorem claim_C2_counterexample :
    (buildTreeRoot [{ path := "B", isDir := false }, { path := "a", isDir := false }]
        "root").children.map TreeNode.name = ["a", "B"] ∧
      lexLe "a" "B" = false := by
  decide

end ContextPack
